import Mathlib

set_option maxHeartbeats 4000000
set_option maxRecDepth 16000

/- Verification development for the blip version control core.
   The definitions below are a shallow embedding of src/main.rs and src/types.rs:
   machine bytes are modelled as Nat values below 256, Rust String values as Lean
   String (a list of characters), Vec of u8 as List Nat, BTreeMap of String to
   String as a strictly key-sorted association list, and the file system as an
   association list from absolute path to file content. -/

inductive Error where
  | ioError
  | noDirectory
  | invalidIndex
  | invalidObjectStore
  | emptyCommit
deriving DecidableEq, Repr

/-- Association list lookup, modelling opening and reading a file by path or
looking up a key in a map. -/
def lookupAssoc {β : Type} : List (String × β) → String → Option β
  | [], _ => none
  | (k', v') :: rest, k => if k' = k then some v' else lookupAssoc rest k

/-- Association list update, modelling File::create overwriting a file at a path:
replaces the binding in place when present, appends it otherwise. -/
def setAssoc {β : Type} (k : String) (v : β) : List (String × β) → List (String × β)
  | [] => [(k, v)]
  | (k', v') :: rest => if k' = k then (k, v) :: rest else (k', v') :: setAssoc k v rest

namespace Sha1

/- Model of the crypto crate Sha1 digest used through Sha1::new + input + result_str:
   whole message hashing, rendered as 40 lowercase hexadecimal characters. -/

def w32 (n : Nat) : Nat := n % 4294967296

def not32 (n : Nat) : Nat := 4294967295 - n

/-- Rotate a 32 bit word left by b bits (for n below 2 to the 32). -/
def rotl (n b : Nat) : Nat := w32 (n * 2 ^ b) + n / 2 ^ (32 - b)

/-- SHA-1 padding: append the 128 byte, zeros to 56 mod 64, then the bit length
as 8 big-endian bytes. -/
def padMessage (msg : List Nat) : List Nat :=
  msg ++ 128 :: List.replicate ((119 - msg.length % 64) % 64) 0
      ++ (List.range 8).map (fun i => msg.length * 8 / 2 ^ (8 * (7 - i)) % 256)

def beWord (bs : List Nat) : Nat := bs.foldl (fun acc byte => acc * 256 + byte) 0

def chunkWords (chunk : List Nat) : List Nat :=
  (List.range 16).map (fun i => beWord ((chunk.drop (4 * i)).take 4))

def extendWords (ws : List Nat) : List Nat :=
  (List.range 64).foldl
    (fun ws _ =>
      ws ++ [rotl ((ws.getD (ws.length - 3) 0) ^^^ (ws.getD (ws.length - 8) 0) ^^^
        (ws.getD (ws.length - 14) 0) ^^^ (ws.getD (ws.length - 16) 0)) 1])
    ws

def step (ws : List Nat) (st : Nat × Nat × Nat × Nat × Nat) (i : Nat) :
    Nat × Nat × Nat × Nat × Nat :=
  let (a, b, c, d, e) := st
  let f :=
    if i < 20 then (b &&& c) ||| (not32 b &&& d)
    else if i < 40 then b ^^^ c ^^^ d
    else if i < 60 then (b &&& c) ||| (b &&& d) ||| (c &&& d)
    else b ^^^ c ^^^ d
  let k :=
    if i < 20 then 1518500249
    else if i < 40 then 1859775393
    else if i < 60 then 2400959708
    else 3395469782
  (w32 (rotl a 5 + f + e + k + ws.getD i 0), a, rotl b 30, c, d)

def processChunk (h : Nat × Nat × Nat × Nat × Nat) (chunk : List Nat) :
    Nat × Nat × Nat × Nat × Nat :=
  let ws := extendWords (chunkWords chunk)
  let (h0, h1, h2, h3, h4) := h
  let (a, b, c, d, e) := (List.range 80).foldl (step ws) (h0, h1, h2, h3, h4)
  (w32 (h0 + a), w32 (h1 + b), w32 (h2 + c), w32 (h3 + d), w32 (h4 + e))

/-- Split into 64 byte chunks; the fuel argument (at least the list length)
makes the recursion structural so that it reduces in the kernel. -/
def chunksGo : Nat → List Nat → List (List Nat)
  | 0, _ => []
  | _ + 1, [] => []
  | fuel + 1, l => l.take 64 :: chunksGo fuel (l.drop 64)

def chunksOf64 (l : List Nat) : List (List Nat) := chunksGo l.length l

def digest (msg : List Nat) : Nat × Nat × Nat × Nat × Nat :=
  (chunksOf64 (padMessage msg)).foldl processChunk
    (1732584193, 4023233417, 2562383102, 271733878, 3285377520)

def hexList : List Char := "0123456789abcdef".data

def hexDigitChar (n : Nat) : Char := hexList.getD (n % 16) '0'

def toHex8 (n : Nat) : List Char :=
  (List.range 8).map (fun i => hexDigitChar (n / 2 ^ (4 * (7 - i))))

/-- Model of Sha1 result_str from the crypto crate: the digest of the whole
message rendered as 40 lowercase hexadecimal characters. -/
def result_str (msg : List Nat) : String :=
  let (h0, h1, h2, h3, h4) := digest msg
  String.mk (toHex8 h0 ++ toHex8 h1 ++ toHex8 h2 ++ toHex8 h3 ++ toHex8 h4)

end Sha1


namespace Utf8

/- Model of UTF-8 encoding and of the strict UTF-8 validation performed by the
   Rust standard library in read_to_string (which fails with an IO error on
   invalid UTF-8 input). -/

def isCont (b : Nat) : Bool := 128 ≤ b && b ≤ 191

/-- Strict UTF-8 decoder following the Rust standard library validation table:
overlong encodings, surrogates and values above U+10FFFF are rejected. -/
def utf8Decode : List Nat → Option (List Char)
  | [] => some []
  | b :: rest =>
    if b ≤ 127 then
      match utf8Decode rest with
      | some cs => some (Char.ofNat b :: cs)
      | none => none
    else if 194 ≤ b && b ≤ 223 then
      match rest with
      | b2 :: rest2 =>
        if isCont b2 then
          match utf8Decode rest2 with
          | some cs => some (Char.ofNat ((b - 192) * 64 + (b2 - 128)) :: cs)
          | none => none
        else none
      | [] => none
    else if (224 ≤ b && b ≤ 239) then
      match rest with
      | b2 :: b3 :: rest3 =>
        let okB2 :=
          if b = 224 then 160 ≤ b2 && b2 ≤ 191
          else if b = 237 then 128 ≤ b2 && b2 ≤ 159
          else isCont b2
        if okB2 && isCont b3 then
          match utf8Decode rest3 with
          | some cs =>
            some (Char.ofNat ((b - 224) * 4096 + (b2 - 128) * 64 + (b3 - 128)) :: cs)
          | none => none
        else none
      | _ => none
    else if (240 ≤ b && b ≤ 244) then
      match rest with
      | b2 :: b3 :: b4 :: rest4 =>
        let okB2 :=
          if b = 240 then 144 ≤ b2 && b2 ≤ 191
          else if b = 244 then 128 ≤ b2 && b2 ≤ 143
          else isCont b2
        if okB2 && isCont b3 && isCont b4 then
          match utf8Decode rest4 with
          | some cs =>
            some (Char.ofNat
              ((b - 240) * 262144 + (b2 - 128) * 4096 + (b3 - 128) * 64 + (b4 - 128)) :: cs)
          | none => none
        else none
      | _ => none
    else none

/-- UTF-8 encoding of one character, as the Rust String representation stores it. -/
def encodeChar (c : Char) : List Nat :=
  let n := c.toNat
  if n ≤ 127 then [n]
  else if n ≤ 2047 then [192 + n / 64, 128 + n % 64]
  else if n ≤ 65535 then [224 + n / 4096, 128 + n / 64 % 64, 128 + n % 64]
  else [240 + n / 262144, 128 + n / 4096 % 64, 128 + n / 64 % 64, 128 + n % 64]

/-- UTF-8 encoding of a string, the exact bytes a Rust String holds. -/
def encode (cs : List Char) : List Nat :=
  cs.foldr (fun c acc => encodeChar c ++ acc) []

end Utf8

/- Text helpers shared by the embedding: line splitting with the semantics of
   the Rust line iterators and token splitting with the semantics of split. -/

/-- Split a character list at every occurrence of sep; mirrors Rust split,
which yields empty fragments between adjacent separators and at the ends. -/
def splitOnChar (sep : Char) : List Char → List (List Char)
  | [] => [[]]
  | c :: rest =>
    match splitOnChar sep rest with
    | [] => [[]]
    | g :: gs => if c = sep then [] :: g :: gs else (c :: g) :: gs

/-- Strip one trailing carriage return, as the Rust line iterators do on
segments that were terminated by a newline. -/
def stripCR (l : List Char) : List Char :=
  if l.getLast? = some '\r' then l.dropLast else l

/-- Character level model of the Rust lines iterators (str::lines and
BufRead::lines): split at every newline, strip a carriage return from segments
that had a newline terminator, drop a final empty segment. -/
def linesOfData (cs : List Char) : List (List Char) :=
  let fs := splitOnChar '\n' cs
  (fs.dropLast.map stripCR) ++
    (match fs.getLast? with
     | some [] => []
     | some l => [l]
     | none => [])

/-- String level model of the Rust lines iterators. -/
def linesOf (s : String) : List String := (linesOfData s.data).map String.mk

/-- Concatenation of lines, each followed by a newline, as produced by a loop
of writeln calls. -/
def concatLines : List String → String
  | [] => ""
  | l :: rest => l ++ "\n" ++ concatLines rest

/-- Model of PathBuf::join for string paths: an absolute second component
replaces the first, otherwise the components are joined with a separator. -/
def pathJoin (a b : String) : String :=
  if b.data.head? = some '/' then b else a ++ "/" ++ b

/-- Lexicographic strict order on character lists, the order Rust uses on
String keys (UTF-8 byte order agrees with code point order). -/
def charListLt : List Char → List Char → Bool
  | [], [] => false
  | [], _ :: _ => true
  | _ :: _, [] => false
  | a :: as, b :: bs => if a < b then true else if b < a then false else charListLt as bs

/-- Lexicographic strict order on strings, the Ord used by BTreeMap. -/
def strLt (a b : String) : Bool := charListLt a.data b.data

/-- Sorted association list standing for BTreeMap of String to String. -/
abbrev BTreeMap := List (String × String)

/-- Model of BTreeMap::insert: keeps the entries strictly sorted by key and
replaces the value when the key is already present. -/
def BTreeMap.insert : BTreeMap → String → String → BTreeMap
  | [], k, v => [(k, v)]
  | (k', v') :: rest, k, v =>
    if strLt k k' then (k, v) :: (k', v') :: rest
    else if k = k' then (k, v) :: rest
    else (k', v') :: BTreeMap.insert rest k v

/-- The BTreeMap invariant: entries strictly increasing by key. -/
def BTreeMap.Sorted (t : BTreeMap) : Prop :=
  t.Pairwise (fun a b => strLt a.1 b.1 = true)

instance (t : BTreeMap) : Decidable (BTreeMap.Sorted t) :=
  inferInstanceAs
    (Decidable (t.Pairwise (fun (a b : String × String) => strLt a.1 b.1 = true)))

/- Commit model (src/types.rs lines 59 to 65 and 283 to 377). The files map is
   the manifest BTreeMap; data holds the canonical serialization text (the Rust
   Vec of u8 contains exactly its UTF-8 bytes). -/

structure Commit where
  hash : Option String
  data : Option String
  parent : Option String
  files : BTreeMap
deriving DecidableEq, Repr

/-- Model of Commit::new: the parent hash is copied when present and the
manifest starts as a copy of the parent manifest, inserted entry by entry. -/
def Commit.new (parent : Option Commit) : Commit :=
  { hash := none
    data := none
    parent :=
      match parent with
      | some p =>
        match p.hash with
        | some h => some h
        | none => none
      | none => none
    files :=
      match parent with
      | some p => p.files.foldl (fun t e => BTreeMap.insert t e.1 e.2) []
      | none => [] }

/-- Model of Commit::add_from_index: merge every index entry into the manifest. -/
def Commit.add_from_index (c : Commit) (hashtree : BTreeMap) : Commit :=
  { c with files := hashtree.foldl (fun t e => BTreeMap.insert t e.1 e.2) c.files }

/-- The exact text built by Commit::update: an optional parent line, then one
line per manifest entry written as blob, the map key, a comma and a space, and
the map value. -/
def Commit.serializeText (c : Commit) : String :=
  (match c.parent with
   | some p => "parent " ++ p ++ "\n"
   | none => "") ++
  concatLines (c.files.map (fun e => "blob " ++ e.1 ++ ", " ++ e.2))

/-- Model of Commit::update: serialize, then fix data to the serialization and
hash to the SHA-1 digest of its bytes. -/
def Commit.update (c : Commit) : Commit :=
  { c with
    hash := some (Sha1.result_str (Utf8.encode (Commit.serializeText c).data))
    data := some (Commit.serializeText c) }

/-- One capture group holder for the regex parent followed by 40 hex digits;
get i returns the group with index i as the regex crate does, none when the
index is out of range. -/
structure ParentCaps where
  g1 : String
deriving DecidableEq, Repr

def ParentCaps.get (c : ParentCaps) (i : Nat) : Option String :=
  if i = 1 then some c.g1 else none

/-- Capture group holder for the regex blob, 40 hex digits, a space and a
greedy dot star group. The pattern has exactly two capture groups. -/
structure BlobCaps where
  g1 : String
  g2 : String
deriving DecidableEq, Repr

def BlobCaps.get (c : BlobCaps) (i : Nat) : Option String :=
  if i = 1 then some c.g1 else if i = 2 then some c.g2 else none

def isHexDigitChar (ch : Char) : Bool :=
  ('0' ≤ ch && ch ≤ '9') || ('a' ≤ ch && ch ≤ 'f')

/-- Try the parent pattern anchored at this position: the literal parent and a
space, then exactly 40 hex characters captured. -/
def matchParentAt (l : List Char) : Option (List Char) :=
  if l.take 7 = "parent ".data then
    let rest := l.drop 7
    let h := rest.take 40
    if h.length = 40 && h.all isHexDigitChar then some h else none
  else none

/-- Try the blob pattern anchored at this position: the literal blob and a
space, 40 hex characters captured, a space, then the rest of the line captured. -/
def matchBlobAt (l : List Char) : Option (List Char × List Char) :=
  if l.take 5 = "blob ".data then
    let rest := l.drop 5
    let h := rest.take 40
    if h.length = 40 && h.all isHexDigitChar then
      match rest.drop 40 with
      | ' ' :: tail => some (h, tail)
      | _ => none
    else none
  else none

/-- Leftmost match search of an unanchored regex: try every start position from
the left and return the first success. -/
def scanCapture {α : Type} (f : List Char → Option α) : List Char → Option α
  | [] => f []
  | c :: rest =>
    match f (c :: rest) with
    | some r => some r
    | none => scanCapture f rest

/-- Model of Regex captures for the pattern parent space and a 40 hex group. -/
def parentCaptures (line : String) : Option ParentCaps :=
  (scanCapture matchParentAt line.data).map (fun h => { g1 := String.mk h })

/-- Model of Regex captures for the pattern blob space, a 40 hex group, a space
and a dot star group. -/
def blobCaptures (line : String) : Option BlobCaps :=
  (scanCapture matchBlobAt line.data).map
    (fun p => { g1 := String.mk p.1, g2 := String.mk p.2 })

/-- The body of the line loop in Commit::from: a parent match updates the
parent field, a blob match reads capture group 1 and then capture group 3, and
a failed capture lookup aborts with InvalidObjectStore. -/
def Commit.fromStep (c : Commit) (line : String) : Except Error Commit := do
  let c ←
    match parentCaptures line with
    | some caps =>
      match ParentCaps.get caps 1 with
      | some h => Except.ok { c with parent := some h }
      | none => Except.error Error.invalidObjectStore
    | none => Except.ok c
  match blobCaptures line with
  | some caps =>
    match BlobCaps.get caps 1 with
    | some h =>
      match BlobCaps.get caps 3 with
      | some p => Except.ok { c with files := BTreeMap.insert c.files h p }
      | none => Except.error Error.invalidObjectStore
    | none => Except.error Error.invalidObjectStore
  | none => Except.ok c

/-- Model of Commit::from (renamed because from is a reserved word): start from
Commit::new None with the given hash and fold the line loop over the input. -/
def Commit.fromText (hash : String) (input : String) : Except Error Commit :=
  (linesOf input).foldlM Commit.fromStep
    { Commit.new none with hash := some hash }

/- Index model (src/types.rs lines 253 to 281 and 196 to 239). The hashtree
   BTreeMap is keyed by the first token of each index line; Index::update
   inserts the path argument as the key and the hash argument as the value. -/

/-- Model of Index::update: insert with the path as key and the hash as value. -/
def Index.update (hashtree : BTreeMap) (path hash : String) : BTreeMap :=
  BTreeMap.insert hashtree path hash

/-- The text written by Index::write and FileService::write_index: one line per
entry holding the map key, a space and the map value. -/
def writeIndexText (hashtree : BTreeMap) : String :=
  concatLines (hashtree.map (fun e => e.1 ++ " " ++ e.2))

/-- One line of FileService::read_index: split the line at spaces, fail with
InvalidIndex unless there are exactly two tokens, insert first token as key and
second as value. -/
def readIndexLine (t : BTreeMap) (line : String) : Except Error BTreeMap :=
  match (splitOnChar ' ' line.data).map String.mk with
  | [a, b] => Except.ok (BTreeMap.insert t a b)
  | _ => Except.error Error.invalidIndex

/-- The parsing part of FileService::read_index: fold the line parser over the
lines of the index file, starting from the empty map. -/
def readIndexText (content : String) : Except Error BTreeMap :=
  (linesOf content).foldlM readIndexLine []

/- Object store model at byte level (src/types.rs lines 85 to 110, 188 to 194
   and 241 to 250). A store maps file name (under the objects directory) to the
   raw bytes of the file. -/

abbrev ObjStore := List (String × List Nat)

/-- Model of FileService::write_obj: create the file named by the hash under
the objects directory and write the data bytes, overwriting unconditionally. -/
def write_obj (store : ObjStore) (hash : String) (data : List Nat) : ObjStore :=
  setAssoc hash data store

/-- Model of FileService::read_object: open the file named by the hash (IO
error when absent) and read_to_string it (IO error when not valid UTF-8). -/
def read_object (store : ObjStore) (hash : String) : Except Error String :=
  match lookupAssoc store hash with
  | none => Except.error Error.ioError
  | some bs =>
    match Utf8.utf8Decode bs with
    | none => Except.error Error.ioError
    | some cs => Except.ok (String.mk cs)

/-- Model of Blob (src/types.rs lines 30 to 34): Blob::new reads the file bytes
and fixes the hash as their SHA-1 digest. -/
structure Blob where
  hash : String
  data : List Nat
deriving DecidableEq, Repr

/-- Model of Blob::new on the bytes read from the file. -/
def Blob.new (data : List Nat) : Blob :=
  { hash := Sha1.result_str data, data := data }

/-- Model of FileService::write_blob: write the blob data under its hash. -/
def write_blob (store : ObjStore) (b : Blob) : ObjStore :=
  write_obj store b.hash b.data

/-- The object write performed by FileService::write_commit after the update
call: write the commit data bytes under the commit hash. -/
def write_commit_object (store : ObjStore) (c : Commit) : ObjStore :=
  match (Commit.update c).hash, (Commit.update c).data with
  | some h, some d => write_obj store h (Utf8.encode d.data)
  | _, _ => store

/-- The object store invariant of claim C10: every stored file is named by the
SHA-1 digest of exactly its bytes. -/
def StoreHashOk (store : ObjStore) : Prop :=
  ∀ p ∈ store, p.1 = Sha1.result_str p.2

/- Ref resolution models at byte level (src/types.rs lines 163 to 182). -/

namespace HeadRef

inductive HeadRefResult where
  | ioErr
  | panicked
  | ok (path : List Nat)
deriving DecidableEq, Repr

def isContByte (b : Nat) : Bool := 128 ≤ b && b ≤ 191

/-- Model of str::is_char_boundary from the Rust standard library. -/
def isCharBoundary (bs : List Nat) (i : Nat) : Bool :=
  i == 0 || (if i < bs.length then !isContByte (bs.getD i 0) else i == bs.length)

/-- Model of PathBuf::join at byte level: an absolute second component replaces
the first, otherwise the components are joined with a separator byte. -/
def pathJoinBytes (a b : List Nat) : List Nat :=
  if b.head? = some 47 then b else a ++ 47 :: b

/-- Model of FileService::get_head_ref: open and read_to_string the HEAD file
(IO error when absent or not valid UTF-8), call split_off 5 on the content
(which panics when 5 is not a character boundary, in particular whenever the
content is shorter than 5 bytes), and join the remainder onto the blip
directory path. No check that the removed bytes spell ref colon space. -/
def get_head_ref (blipDir : List Nat) (headFile : Option (List Nat)) : HeadRefResult :=
  match headFile with
  | none => .ioErr
  | some bs =>
    if (Utf8.utf8Decode bs).isNone then .ioErr
    else if !isCharBoundary bs 5 then .panicked
    else .ok (pathJoinBytes blipDir (bs.drop 5))

inductive RefReadResult where
  | missing
  | panicked
  | contents (s : String)
deriving DecidableEq, Repr

/-- Model of FileService::get_hash_from_ref: absent file gives the missing
result (Rust None), a present file is read with read_to_string whose failure
(invalid UTF-8) hits an expect and panics, otherwise the full contents are
returned. -/
def get_hash_from_ref (refFile : Option (List Nat)) : RefReadResult :=
  match refFile with
  | none => .missing
  | some bs =>
    match Utf8.utf8Decode bs with
    | none => .panicked
    | some cs => .contents (String.mk cs)

end HeadRef

/-- Decidable equality for Except values, used to evaluate the parser results
on concrete inputs. -/
instance {ε α : Type} [DecidableEq ε] [DecidableEq α] : DecidableEq (Except ε α) :=
  fun a b =>
    match a, b with
    | .error e, .error f =>
      if h : e = f then isTrue (by rw [h])
      else isFalse (fun hh => by cases hh; exact h rfl)
    | .error _, .ok _ => isFalse (fun hh => by cases hh)
    | .ok _, .error _ => isFalse (fun hh => by cases hh)
    | .ok x, .ok y =>
      if h : x = y then isTrue (by rw [h])
      else isFalse (fun hh => by cases hh; exact h rfl)

/- End to end model of the commit flow in src/main.rs lines 17 to 37, over a
   file system given as an association list from absolute path to text content,
   together with an oracle listing the paths on which File::create fails. -/

structure FileService where
  root_dir : String
  blip_dir : String
  object_dir : String
  index : String
  head : String
deriving DecidableEq, Repr

/-- Model of FileService::new from a located repository root (src/types.rs
lines 112 to 127). -/
def FileService.make (root : String) : FileService :=
  let blip := pathJoin root ".blip"
  { root_dir := root
    blip_dir := blip
    object_dir := pathJoin blip "objects"
    index := pathJoin blip "index"
    head := pathJoin blip "HEAD" }

structure World where
  fs : List (String × String)
  fails : List String
deriving DecidableEq, Repr

/-- Result of one operation: normal return, error return, or a panic. -/
inductive Outcome (α : Type) where
  | ok (a : α)
  | err (e : Error)
  | panicked
deriving DecidableEq, Repr

/-- Model of File::create followed by writing the full content: fails (with no
change to the file system) exactly on the oracle paths, otherwise overwrites. -/
def fsCreateWrite (w : World) (p : String) (content : String) : Option World :=
  if p ∈ w.fails then none else some { w with fs := setAssoc p content w.fs }

def strDrop (s : String) (n : Nat) : String := String.mk (s.data.drop n)

/-- Flow model of FileService::get_head_ref: read HEAD, split_off 5 (panics on
content shorter than five characters), join the remainder onto the blip
directory. -/
def getHeadRefFlow (fsv : FileService) (w : World) : Outcome String :=
  match lookupAssoc w.fs fsv.head with
  | none => .err .ioError
  | some c =>
    if c.data.length < 5 then .panicked
    else .ok (pathJoin fsv.blip_dir (strDrop c 5))

/-- Flow model of FileService::read_index: open the index file and parse it. -/
def readIndexFlow (fsv : FileService) (w : World) : Outcome BTreeMap :=
  match lookupAssoc w.fs fsv.index with
  | none => .err .ioError
  | some content =>
    match readIndexText content with
    | .ok t => .ok t
    | .error e => .err e

/-- Flow model of FileService::read_commit: read the object file named by the
hash under the objects directory and parse it with Commit::from. -/
def readCommitFlow (fsv : FileService) (w : World) (hash : String) : Outcome Commit :=
  match lookupAssoc w.fs (pathJoin fsv.object_dir hash) with
  | none => .err .ioError
  | some text =>
    match Commit.fromText hash text with
    | .ok c => .ok c
    | .error e => .err e

/-- The parent resolution in commit (src/main.rs lines 23 to 26): read the
commit named by the parent hash when one is present. -/
def resolveParent (fsv : FileService) (w : World) (parentHash : Option String) :
    Outcome (Option Commit) :=
  match parentHash with
  | some ph =>
    match readCommitFlow fsv w ph with
    | .ok c => .ok (some c)
    | .err e => .err e
    | .panicked => .panicked
  | none => .ok none

/-- Flow model of FileService::write_commit (src/types.rs lines 212 to 231):
update the commit, write its data under its hash in the objects directory,
re-resolve the head ref and write the hash there. The fallback arm returning
EmptyCommit is kept as in the source. -/
def writeCommitFlow (fsv : FileService) (c : Commit) (w : World) :
    Outcome Unit × World :=
  match (Commit.update c).hash, (Commit.update c).data with
  | some h, some d =>
    match fsCreateWrite w (pathJoin fsv.object_dir h) d with
    | none => (.err .ioError, w)
    | some w1 =>
      match getHeadRefFlow fsv w1 with
      | .err e => (.err e, w1)
      | .panicked => (.panicked, w1)
      | .ok rp =>
        match fsCreateWrite w1 rp h with
        | none => (.err .ioError, w1)
        | some w2 => (.ok (), w2)
  | _, _ => (.err .emptyCommit, w)

/-- Flow model of Index::clear: empty the in-memory map, then rewrite the index
file (now with no lines). -/
def clearFlow (fsv : FileService) (w : World) : Outcome Unit × World :=
  match fsCreateWrite w fsv.index "" with
  | none => (.err .ioError, w)
  | some w' => (.ok (), w')

/-- Flow model of commit in src/main.rs: resolve the head ref, read the parent
hash from the ref file, load the index, read the parent commit, build the new
commit from the parent and the index, write it, then clear the index. The
third component observes the in-memory index map at exit: none before the
index is loaded, the loaded map afterwards, the empty map once clear ran. -/
def commitFlow (fsv : FileService) (w : World) :
    Outcome Unit × World × Option BTreeMap :=
  match getHeadRefFlow fsv w with
  | .err e => (.err e, w, none)
  | .panicked => (.panicked, w, none)
  | .ok headRef =>
    let parentHash := lookupAssoc w.fs headRef
    match readIndexFlow fsv w with
    | .err e => (.err e, w, none)
    | .panicked => (.panicked, w, none)
    | .ok idx =>
      match resolveParent fsv w parentHash with
      | .err e => (.err e, w, none)
      | .panicked => (.panicked, w, none)
      | .ok parent =>
        match writeCommitFlow fsv (Commit.add_from_index (Commit.new parent) idx) w with
        | (.ok _, w1) =>
          match clearFlow fsv w1 with
          | (.ok _, w2) => (.ok (), w2, some [])
          | (.err e, w2) => (.err e, w2, some [])
          | (.panicked, w2) => (.panicked, w2, some [])
        | (.err e, w1) => (.err e, w1, some idx)
        | (.panicked, w1) => (.panicked, w1, some idx)

/- Concrete fixtures used to evaluate the model on explicit inputs. -/

def hashF : String := "ffffffffffffffffffffffffffffffffffffffff"

def hashA : String := "aaaaaaaaaaaaaaaaaaaaaaaaaaaaaaaaaaaaaaaa"

/-- A finalized parent commit with a one entry manifest. -/
def exCommitP : Commit :=
  Commit.update { hash := none, data := none, parent := none, files := [("a.txt", hashF)] }

/-- A finalized child commit built with exCommitP as parent. -/
def exCommitC : Commit := Commit.update (Commit.new (some exCommitP))

/-- An index built by two Index::update calls. -/
def exIndexTree : BTreeMap :=
  Index.update (Index.update [] "b.txt" hashA) "a.txt" hashF

/-- Formalization of the wording of claim C4: one line per entry with the
content hash first, then the path, lines ordered by hash. -/
def insertByHash (e : String × String) : BTreeMap → BTreeMap
  | [] => [e]
  | f :: rest => if strLt e.2 f.2 then e :: f :: rest else f :: insertByHash e rest

/-- Formalization of the wording of claim C4 for the whole file: entries sorted
by hash, each line holding the hash then the path. -/
def specIndexTextClaim (t : BTreeMap) : String :=
  concatLines ((t.foldr insertByHash []).map (fun e => e.2 ++ " " ++ e.1))

def fsvR : FileService := FileService.make "/r"

/-- The world of a freshly initialized repository: HEAD points at the master
ref, the index file is empty, no ref file and no objects exist. -/
def freshWorld : World :=
  { fs := [(fsvR.head, "ref: refs/heads/master"), (fsvR.index, "")], fails := [] }

/-- A world with one staged file in which creating the master ref file fails. -/
def refFailWorld : World :=
  { fs := [(fsvR.head, "ref: refs/heads/master"), (fsvR.index, "a.txt " ++ hashF)]
    fails := [pathJoin fsvR.blip_dir "refs/heads/master"] }

/-- The commit built by the flow in refFailWorld: no parent, one staged entry. -/
def exCommitStaged : Commit :=
  Commit.add_from_index (Commit.new none) [("a.txt", hashF)]

/- Helper lemmas. -/

theorem lookupAssoc_setAssoc_self {β : Type} (l : List (String × β)) (k : String) (v : β) :
    lookupAssoc (setAssoc k v l) k = some v := by
  induction l with
  | nil => simp [setAssoc, lookupAssoc]
  | cons p rest ih =>
    by_cases h : p.1 = k
    · simp [setAssoc, h, lookupAssoc]
    · simp [setAssoc, h, lookupAssoc, ih]

theorem lookupAssoc_setAssoc_ne {β : Type} (l : List (String × β)) (k q : String) (v : β)
    (h : q ≠ k) : lookupAssoc (setAssoc k v l) q = lookupAssoc l q := by
  induction l with
  | nil => simp [setAssoc, lookupAssoc, Ne.symm h]
  | cons p rest ih =>
    by_cases hp : p.1 = k
    · simp [setAssoc, hp, lookupAssoc, Ne.symm h]
    · simp only [setAssoc, hp, if_false, lookupAssoc]
      by_cases hq : p.1 = q
      · simp [hq]
      · simp [hq, ih]

theorem mem_setAssoc {β : Type} (l : List (String × β)) (k : String) (v : β)
    (p : String × β) (h : p ∈ setAssoc k v l) : p ∈ l ∨ p = (k, v) := by
  induction l with
  | nil => simp [setAssoc] at h; simp [h]
  | cons q rest ih =>
    by_cases hq : q.1 = k
    · simp [setAssoc, hq] at h
      rcases h with h | h
      · right; exact h
      · left; simp [h]
    · simp [setAssoc, hq] at h
      rcases h with h | h
      · left; simp [h]
      · rcases ih h with h2 | h2
        · left; simp [h2]
        · right; exact h2

theorem splitOnChar_ne_nil (sep : Char) (cs : List Char) : splitOnChar sep cs ≠ [] := by
  cases cs with
  | nil => simp [splitOnChar]
  | cons c rest =>
    simp only [splitOnChar]
    cases h : splitOnChar sep rest with
    | nil => simp
    | cons g gs =>
      by_cases hc : c = sep <;> simp [hc]

theorem splitOnChar_of_not_mem (sep : Char) (xs : List Char) (h : sep ∉ xs) :
    splitOnChar sep xs = [xs] := by
  induction xs with
  | nil => simp [splitOnChar]
  | cons c rest ih =>
    have hc : c ≠ sep := fun hh => h (by simp [hh])
    have hr : sep ∉ rest := fun hh => h (by simp [hh])
    simp [splitOnChar, ih hr, hc]

theorem splitOnChar_append (sep : Char) (xs ys : List Char) (h : sep ∉ xs) :
    splitOnChar sep (xs ++ sep :: ys) = xs :: splitOnChar sep ys := by
  induction xs with
  | nil =>
    simp only [List.nil_append, splitOnChar]
    cases hs : splitOnChar sep ys with
    | nil => exact absurd hs (splitOnChar_ne_nil sep ys)
    | cons g gs => simp
  | cons c rest ih =>
    have hc : c ≠ sep := fun hh => h (by simp [hh])
    have hr : sep ∉ rest := fun hh => h (by simp [hh])
    simp only [List.cons_append, splitOnChar, ih hr]
    cases hs : (rest ++ sep :: ys) with
    | nil => cases rest <;> simp at hs
    | cons a as => simp [← hs, ih hr, hc]

theorem stripCR_of_not_cr (l : List Char) (h : l.getLast? ≠ some '\r') : stripCR l = l := by
  simp [stripCR, h]

theorem linesOfData_nil : linesOfData [] = [] := rfl

theorem linesOfData_cons (l r : List Char) (h1 : '\n' ∉ l) (h2 : l.getLast? ≠ some '\r') :
    linesOfData (l ++ '\n' :: r) = l :: linesOfData r := by
  have hsplit := splitOnChar_append '\n' l r h1
  simp only [linesOfData, hsplit]
  cases hs : splitOnChar '\n' r with
  | nil => exact absurd hs (splitOnChar_ne_nil '\n' r)
  | cons g gs =>
    simp only [List.dropLast_cons₂, List.map_cons, List.getLast?_cons_cons,
      List.cons_append, stripCR_of_not_cr l h2]

theorem linesOf_concatLines (ls : List String)
    (h : ∀ l ∈ ls, '\n' ∉ l.data ∧ l.data.getLast? ≠ some '\r') :
    linesOf (concatLines ls) = ls := by
  induction ls with
  | nil => rfl
  | cons l rest ih =>
    have hl := h l (by simp)
    have hdata : (concatLines (l :: rest)).data = l.data ++ '\n' :: (concatLines rest).data := by
      simp only [concatLines, String.data_append]
      have : ("\n" : String).data = ['\n'] := rfl
      simp [this]
    simp only [linesOf, hdata, linesOfData_cons l.data (concatLines rest).data hl.1 hl.2,
      List.map_cons]
    have : String.mk l.data = l := rfl
    rw [this]
    have ihh := ih (fun x hx => h x (by simp [hx]))
    simp only [linesOf] at ihh
    rw [ihh]

theorem charListLt_irrefl (l : List Char) : charListLt l l = false := by
  induction l with
  | nil => rfl
  | cons a as ih => simp [charListLt, lt_irrefl, ih]

theorem charListLt_asymm (a b : List Char) (h : charListLt a b = true) :
    charListLt b a = false := by
  induction a generalizing b with
  | nil =>
    cases b with
    | nil => simp [charListLt] at h
    | cons y ys => simp [charListLt]
  | cons x xs ih =>
    cases b with
    | nil => simp [charListLt] at h
    | cons y ys =>
      simp only [charListLt] at h ⊢
      by_cases h1 : x < y
      · simp [h1, not_lt_of_gt h1, ne_of_gt h1]
      · by_cases h2 : y < x
        · simp [h1, h2] at h
        · simp only [h1, if_false, h2] at h ⊢
          exact ih ys h

theorem charListLt_trans (a b c : List Char) (h1 : charListLt a b = true)
    (h2 : charListLt b c = true) : charListLt a c = true := by
  induction a generalizing b c with
  | nil =>
    cases c with
    | nil =>
      cases b with
      | nil => simp [charListLt] at h1
      | cons y ys => simp [charListLt] at h2
    | cons z zs => simp [charListLt]
  | cons x xs ih =>
    cases b with
    | nil => simp [charListLt] at h1
    | cons y ys =>
      cases c with
      | nil => simp [charListLt] at h2
      | cons z zs =>
        simp only [charListLt] at h1 h2 ⊢
        by_cases hxy : x < y
        · by_cases hyz : y < z
          · simp [lt_trans hxy hyz]
          · by_cases hzy : z < y
            · simp [hyz, hzy] at h2
            · have heq : y = z := le_antisymm (not_lt.1 hzy) (not_lt.1 hyz)
              subst heq
              simp [hxy]
        · by_cases hyx : y < x
          · simp [hxy, hyx] at h1
          · have heq : x = y := le_antisymm (not_lt.1 hyx) (not_lt.1 hxy)
            subst heq
            simp only [hxy, if_false, hyx] at h1
            by_cases hxz : x < z
            · simp [hxz]
            · by_cases hzx : z < x
              · simp [hxz, hzx] at h2
              · have heq2 : x = z := le_antisymm (not_lt.1 hzx) (not_lt.1 hxz)
                subst heq2
                simp only [hxz, if_false, hzx] at h2 ⊢
                exact ih ys zs h1 h2

theorem charListLt_connex (a b : List Char) (hne : a ≠ b) :
    charListLt a b = true ∨ charListLt b a = true := by
  induction a generalizing b with
  | nil =>
    cases b with
    | nil => exact absurd rfl hne
    | cons y ys => left; rfl
  | cons x xs ih =>
    cases b with
    | nil => right; rfl
    | cons y ys =>
      rcases lt_trichotomy x y with h | h | h
      · left; simp [charListLt, h]
      · subst h
        have hne2 : xs ≠ ys := fun hh => hne (by rw [hh])
        rcases ih ys hne2 with h2 | h2
        · left; simp [charListLt, lt_irrefl, h2]
        · right; simp [charListLt, lt_irrefl, h2]
      · right; simp [charListLt, h, not_lt_of_gt h]

theorem strLt_irrefl (s : String) : strLt s s = false := charListLt_irrefl s.data

theorem strLt_ne (a b : String) (h : strLt a b = true) : a ≠ b := by
  intro he
  subst he
  rw [strLt_irrefl] at h
  exact Bool.noConfusion h

theorem strLt_asymm (a b : String) (h : strLt a b = true) : strLt b a = false :=
  charListLt_asymm a.data b.data h

theorem strLt_trans (a b c : String) (h1 : strLt a b = true) (h2 : strLt b c = true) :
    strLt a c = true :=
  charListLt_trans a.data b.data c.data h1 h2

theorem strLt_connex (a b : String) (hne : a ≠ b) : strLt a b = true ∨ strLt b a = true :=
  charListLt_connex a.data b.data
    (fun hh => hne (show String.mk a.data = String.mk b.data from congrArg String.mk hh))

theorem BTreeMap.mem_insert (t : BTreeMap) (k v : String) (p : String × String)
    (h : p ∈ BTreeMap.insert t k v) : p ∈ t ∨ p = (k, v) := by
  induction t with
  | nil => simp [BTreeMap.insert] at h; simp [h]
  | cons q rest ih =>
    simp only [BTreeMap.insert] at h
    by_cases h1 : strLt k q.1 = true
    · simp [h1] at h
      rcases h with h | h | h
      · right; simp [h]
      · left; simp [h]
      · left; simp [h]
    · by_cases h2 : k = q.1
      · subst h2
        rw [strLt_irrefl] at h
        simp at h
        rcases h with h | h
        · right; simp [h]
        · left; simp [h]
      · simp [h1, h2] at h
        rcases h with h | h
        · left; simp [h]
        · rcases ih h with h3 | h3
          · left; simp [h3]
          · right; exact h3

theorem BTreeMap.insert_append_of_lt (t : BTreeMap) (k v : String)
    (h : ∀ e ∈ t, strLt e.1 k = true) : BTreeMap.insert t k v = t ++ [(k, v)] := by
  induction t with
  | nil => rfl
  | cons q rest ih =>
    have hq : strLt q.1 k = true := h q (by simp)
    have h1 : strLt k q.1 = false := strLt_asymm q.1 k hq
    have h2 : ¬k = q.1 := Ne.symm (strLt_ne q.1 k hq)
    simp [BTreeMap.insert, h1, h2, ih (fun e he => h e (by simp [he]))]

theorem BTreeMap.sorted_insert (t : BTreeMap) (k v : String) (h : BTreeMap.Sorted t) :
    BTreeMap.Sorted (BTreeMap.insert t k v) := by
  induction t with
  | nil => simp [BTreeMap.insert, BTreeMap.Sorted]
  | cons q rest ih =>
    simp only [BTreeMap.Sorted, List.pairwise_cons] at h
    simp only [BTreeMap.Sorted]
    by_cases h1 : strLt k q.1 = true
    · simp only [BTreeMap.insert, h1, if_true]
      refine List.Pairwise.cons ?_ (List.Pairwise.cons h.1 h.2)
      intro b hb
      simp only [List.mem_cons] at hb
      rcases hb with hb | hb
      · rw [hb]; exact h1
      · exact strLt_trans k q.1 b.1 h1 (h.1 b hb)
    · by_cases h2 : k = q.1
      · subst h2
        simp only [BTreeMap.insert, strLt_irrefl]
        simp only [Bool.false_eq_true, if_false, if_true]
        exact List.Pairwise.cons (fun b hb => h.1 b hb) h.2
      · simp only [BTreeMap.insert, h1, if_false, h2, if_false]
        refine List.Pairwise.cons ?_ (ih h.2)
        intro b hb
        rcases BTreeMap.mem_insert rest k v b hb with h3 | h3
        · exact h.1 b h3
        · rw [h3]
          rcases strLt_connex k q.1 h2 with hh | hh
          · exact absurd hh h1
          · exact hh

theorem BTreeMap.foldl_insert_sorted (t pre : BTreeMap) (h : BTreeMap.Sorted (pre ++ t)) :
    t.foldl (fun a e => BTreeMap.insert a e.1 e.2) pre = pre ++ t := by
  induction t generalizing pre with
  | nil => simp
  | cons e rest ih =>
    have hlt : ∀ q ∈ pre, strLt q.1 e.1 = true := by
      intro q hq
      have := (List.pairwise_append.1 h).2.2 q hq e (by simp)
      exact this
    have hins : BTreeMap.insert pre e.1 e.2 = pre ++ [e] := by
      rw [BTreeMap.insert_append_of_lt pre e.1 e.2 hlt]
    simp only [List.foldl_cons, hins]
    have hperm : (pre ++ [e]) ++ rest = pre ++ e :: rest := by simp
    have h2 : BTreeMap.Sorted ((pre ++ [e]) ++ rest) := by
      rw [hperm]; exact h
    rw [ih (pre ++ [e]) h2, hperm]

theorem BTreeMap.sorted_foldl_insert (us : List (String × String)) (acc : BTreeMap)
    (h : BTreeMap.Sorted acc) :
    BTreeMap.Sorted (us.foldl (fun a e => BTreeMap.insert a e.1 e.2) acc) := by
  induction us generalizing acc with
  | nil => simpa using h
  | cons e rest ih =>
    simp only [List.foldl_cons]
    exact ih _ (BTreeMap.sorted_insert acc e.1 e.2 h)

theorem BTreeMap.mem_foldl_insert (us : List (String × String)) (acc : BTreeMap)
    (p : String × String)
    (h : p ∈ us.foldl (fun a e => BTreeMap.insert a e.1 e.2) acc) : p ∈ acc ∨ p ∈ us := by
  induction us generalizing acc with
  | nil => simp at h; exact Or.inl h
  | cons e rest ih =>
    simp only [List.foldl_cons] at h
    rcases ih _ h with h2 | h2
    · rcases BTreeMap.mem_insert acc e.1 e.2 p h2 with h3 | h3
      · exact Or.inl h3
      · right; simp [h3, Prod.ext_iff]
    · right; simp [h2]

theorem Sha1.isHex_hexDigitChar (n : Nat) : isHexDigitChar (Sha1.hexDigitChar n) = true := by
  have h16 : n % 16 < 16 := Nat.mod_lt _ (by norm_num)
  have hall : ∀ i < 16, isHexDigitChar (Sha1.hexList.getD i '0') = true := by decide
  exact hall _ h16

theorem Sha1.toHex8_length (n : Nat) : (Sha1.toHex8 n).length = 8 := by
  simp [Sha1.toHex8]

theorem Sha1.mem_toHex8_hex (n : Nat) (ch : Char) (h : ch ∈ Sha1.toHex8 n) :
    isHexDigitChar ch = true := by
  simp only [Sha1.toHex8, List.mem_map] at h
  obtain ⟨i, _, hch⟩ := h
  rw [← hch]
  exact Sha1.isHex_hexDigitChar _

theorem Sha1.result_str_data (msg : List Nat) :
    (Sha1.result_str msg).data =
      Sha1.toHex8 (Sha1.digest msg).1 ++ Sha1.toHex8 (Sha1.digest msg).2.1 ++
      Sha1.toHex8 (Sha1.digest msg).2.2.1 ++ Sha1.toHex8 (Sha1.digest msg).2.2.2.1 ++
      Sha1.toHex8 (Sha1.digest msg).2.2.2.2 := by
  unfold Sha1.result_str
  rcases Sha1.digest msg with ⟨a, b, c, d, e⟩
  rfl

theorem Sha1.result_str_length (msg : List Nat) : (Sha1.result_str msg).data.length = 40 := by
  rw [Sha1.result_str_data]
  simp [Sha1.toHex8]

theorem Sha1.result_str_hex (msg : List Nat) :
    ∀ ch ∈ (Sha1.result_str msg).data, isHexDigitChar ch = true := by
  rw [Sha1.result_str_data]
  intro ch hch
  simp only [List.mem_append] at hch
  rcases hch with ((((h | h) | h) | h) | h) <;> exact Sha1.mem_toHex8_hex _ ch h

theorem Sha1.result_str_head_ne_slash (msg : List Nat) :
    (Sha1.result_str msg).data.head? ≠ some '/' := by
  intro h
  cases hd : (Sha1.result_str msg).data with
  | nil =>
    have := Sha1.result_str_length msg
    rw [hd] at this
    simp at this
  | cons c cs =>
    rw [hd] at h
    simp only [List.head?_cons, Option.some.injEq] at h
    have hmem : c ∈ (Sha1.result_str msg).data := by rw [hd]; simp
    have hhex := Sha1.result_str_hex msg c hmem
    rw [h] at hhex
    exact absurd hhex (by decide)

theorem objPath_ne_index (root hash : String) (hh : hash.data.head? ≠ some '/') :
    pathJoin (FileService.make root).object_dir hash ≠ (FileService.make root).index := by
  intro heq
  have e1 : pathJoin root ".blip" = root ++ "/" ++ ".blip" := by
    unfold pathJoin
    rw [if_neg (by decide)]
  have e2 : pathJoin (root ++ "/" ++ ".blip") "objects" =
      root ++ "/" ++ ".blip" ++ "/" ++ "objects" := by
    unfold pathJoin
    rw [if_neg (by decide)]
  have e3 : pathJoin (root ++ "/" ++ ".blip") "index" =
      root ++ "/" ++ ".blip" ++ "/" ++ "index" := by
    unfold pathJoin
    rw [if_neg (by decide)]
  simp only [FileService.make, e1, e2, e3] at heq
  have e4 : pathJoin (root ++ "/" ++ ".blip" ++ "/" ++ "objects") hash =
      root ++ "/" ++ ".blip" ++ "/" ++ "objects" ++ "/" ++ hash := by
    unfold pathJoin
    rw [if_neg hh]
  rw [e4] at heq
  have heqd := congrArg String.data heq
  have d1 : ("/" : String).data = ['/'] := rfl
  have d2 : (".blip" : String).data = ['.', 'b', 'l', 'i', 'p'] := rfl
  have d3 : ("objects" : String).data = ['o', 'b', 'j', 'e', 'c', 't', 's'] := rfl
  have d4 : ("index" : String).data = ['i', 'n', 'd', 'e', 'x'] := rfl
  simp only [String.data_append, d1, d2, d3, d4, List.append_assoc, List.cons_append,
    List.singleton_append, List.nil_append] at heqd
  have heqc := List.append_cancel_left heqd
  simp at heqc

theorem fsCreateWrite_some (w : World) (p content : String) (w1 : World)
    (h : fsCreateWrite w p content = some w1) : w1.fs = setAssoc p content w.fs := by
  unfold fsCreateWrite at h
  split at h
  · exact absurd h (by simp)
  · have h2 := Option.some.inj h
    rw [← h2]

theorem writeCommitFlow_err_index (root : String) (c : Commit) (w : World) (e : Error)
    (w' : World)
    (h : writeCommitFlow (FileService.make root) c w = (Outcome.err e, w')) :
    lookupAssoc w'.fs (FileService.make root).index =
      lookupAssoc w.fs (FileService.make root).index := by
  have hupd : (Commit.update c).hash =
      some (Sha1.result_str (Utf8.encode (Commit.serializeText c).data)) := rfl
  have hupd2 : (Commit.update c).data = some (Commit.serializeText c) := rfl
  unfold writeCommitFlow at h
  rw [hupd, hupd2] at h
  dsimp only at h
  have hne : (FileService.make root).index ≠
      pathJoin (FileService.make root).object_dir
        (Sha1.result_str (Utf8.encode (Commit.serializeText c).data)) :=
    Ne.symm (objPath_ne_index root _ (Sha1.result_str_head_ne_slash _))
  cases hcw : fsCreateWrite w
      (pathJoin (FileService.make root).object_dir
        (Sha1.result_str (Utf8.encode (Commit.serializeText c).data)))
      (Commit.serializeText c) with
  | none =>
    rw [hcw] at h
    simp only [Prod.mk.injEq] at h
    rw [← h.2]
  | some w1 =>
    rw [hcw] at h
    dsimp only at h
    have hw1 : lookupAssoc w1.fs (FileService.make root).index =
        lookupAssoc w.fs (FileService.make root).index := by
      rw [fsCreateWrite_some w _ _ w1 hcw]
      exact lookupAssoc_setAssoc_ne w.fs _ _ _ hne
    cases hgh : getHeadRefFlow (FileService.make root) w1 with
    | err e1 =>
      rw [hgh] at h
      dsimp only at h
      simp only [Prod.mk.injEq] at h
      rw [← h.2]
      exact hw1
    | panicked =>
      rw [hgh] at h
      simp at h
    | ok rp =>
      rw [hgh] at h
      dsimp only at h
      cases hcw2 : fsCreateWrite w1 rp
          (Sha1.result_str (Utf8.encode (Commit.serializeText c).data)) with
      | none =>
        rw [hcw2] at h
        dsimp only at h
        simp only [Prod.mk.injEq] at h
        rw [← h.2]
        exact hw1
      | some w2 =>
        rw [hcw2] at h
        simp at h

theorem readIndexLine_entry (t : BTreeMap) (k v : String)
    (hk : ' ' ∉ k.data) (hv : ' ' ∉ v.data) :
    readIndexLine t (k ++ " " ++ v) = Except.ok (BTreeMap.insert t k v) := by
  have hdata : (k ++ " " ++ v).data = k.data ++ ' ' :: v.data := by
    simp only [String.data_append]
    have : (" " : String).data = [' '] := rfl
    simp [this]
  have hsplit : splitOnChar ' ' (k ++ " " ++ v).data = [k.data, v.data] := by
    rw [hdata, splitOnChar_append ' ' k.data v.data hk, splitOnChar_of_not_mem ' ' v.data hv]
  simp only [readIndexLine, hsplit, List.map_cons, List.map_nil]

theorem readIndex_fold_entries (t acc : BTreeMap)
    (hs : BTreeMap.Sorted (acc ++ t))
    (hv : ∀ e ∈ t, ' ' ∉ e.1.data ∧ ' ' ∉ e.2.data) :
    (t.map (fun e => e.1 ++ " " ++ e.2)).foldlM readIndexLine acc = Except.ok (acc ++ t) := by
  induction t generalizing acc with
  | nil => simp [pure, Except.pure]
  | cons e rest ih =>
    have he := hv e (by simp)
    have hlt : ∀ q ∈ acc, strLt q.1 e.1 = true := by
      intro q hq
      exact (List.pairwise_append.1 hs).2.2 q hq e (by simp)
    simp only [List.map_cons, List.foldlM_cons, readIndexLine_entry acc e.1 e.2 he.1 he.2]
    have hins : BTreeMap.insert acc e.1 e.2 = acc ++ [e] :=
      BTreeMap.insert_append_of_lt acc e.1 e.2 hlt
    rw [hins]
    have hperm : (acc ++ [e]) ++ rest = acc ++ e :: rest := by simp
    have hs2 : BTreeMap.Sorted ((acc ++ [e]) ++ rest) := by rw [hperm]; exact hs
    have hred : (do
          let init ← (Except.ok (acc ++ [e]) : Except Error BTreeMap)
          List.foldlM readIndexLine init (List.map (fun e => e.1 ++ " " ++ e.2) rest)) =
        List.foldlM readIndexLine (acc ++ [e])
          (List.map (fun e => e.1 ++ " " ++ e.2) rest) := rfl
    rw [hred, ih (acc ++ [e]) hs2 (fun x hx => hv x (by simp [hx])), hperm]

theorem lineOf_entry_valid (e : String × String)
    (h1 : '\n' ∉ e.1.data) (h2 : '\n' ∉ e.2.data) (h3 : e.2.data.getLast? ≠ some '\r') :
    '\n' ∉ (e.1 ++ " " ++ e.2).data ∧ (e.1 ++ " " ++ e.2).data.getLast? ≠ some '\r' := by
  have hdata : (e.1 ++ " " ++ e.2).data = e.1.data ++ ' ' :: e.2.data := by
    simp only [String.data_append]
    have hsp : (" " : String).data = [' '] := rfl
    simp [hsp]
  rw [hdata]
  constructor
  · simp only [List.mem_append, List.mem_cons]
    push_neg
    exact ⟨h1, by decide, h2⟩
  · have hne : (' ' :: e.2.data) ≠ [] := by simp
    rw [List.getLast?_append_of_ne_nil _ hne]
    cases hc : e.2.data with
    | nil => decide
    | cons c cs =>
      rw [List.getLast?_cons_cons]
      rw [hc] at h3
      exact h3

/-- Claim C1: for a finalized commit C built with parent P, Commit::from on the
hash and serialization of C should rebuild an identical manifest and the parent
hash of P. The code refutes the manifest half: the serializer writes blob
lines with a comma while the parser expects a space and reads a missing capture
group, so the parse succeeds with an empty manifest (the parent hash half does
round trip). Evaluated on a concrete one entry commit. -/
theorem c1_roundtrip_manifest_lost :
    (Commit.fromText (exCommitC.hash.getD "") (Commit.serializeText exCommitC)).map Commit.files =
      Except.ok [] ∧
    exCommitC.files = [("a.txt", hashF)] ∧
    (Commit.fromText (exCommitC.hash.getD "") (Commit.serializeText exCommitC)).map Commit.parent =
      Except.ok exCommitP.hash := by
  decide

/-- Claim C2: committing with an empty staging index and no parent should fail
with EmptyCommit and write nothing. The code refutes this: Commit::update
always sets hash and data to Some values, so the EmptyCommit arm of
write_commit is unreachable; on a fresh repository the flow returns Ok, writes
an empty object named by the digest of the empty byte sequence, and updates
the master ref to that hash. -/
theorem c2_empty_commit_accepted :
    commitFlow fsvR freshWorld =
      (Outcome.ok (),
        { fs := [(fsvR.head, "ref: refs/heads/master"), (fsvR.index, ""),
                 ("/r/.blip/objects/da39a3ee5e6b4b0d3255bfef95601890afd80709", ""),
                 ("/r/.blip/refs/heads/master", "da39a3ee5e6b4b0d3255bfef95601890afd80709")],
          fails := [] },
        some []) ∧
    (commitFlow fsvR freshWorld).1 ≠ Outcome.err Error.emptyCommit ∧
    Sha1.result_str [] = "da39a3ee5e6b4b0d3255bfef95601890afd80709" := by
  decide

/-- Claim C3: Commit::from should record parent and blob declarations of the
canonical grammar, ignore other lines, and fail with InvalidObjectStore exactly
when a declaration shaped line yields no valid hash. The code refutes this
three ways: a blob line in the space separated shape with a perfectly valid
hash fails with InvalidObjectStore (the code reads capture group 3 of a two
group pattern); a blob line in the canonical comma shape is silently ignored
and records nothing; a parent shaped line with an invalid hash is silently
ignored instead of failing. -/
theorem c3_parser_rejects_and_ignores :
    Commit.fromText "h" ("blob " ++ hashA ++ " f.txt") = Except.error Error.invalidObjectStore ∧
    (Commit.fromText "h" ("blob " ++ hashA ++ ", f.txt")).map Commit.files = Except.ok [] ∧
    Commit.fromText "h" "parent zzzz" =
      Except.ok { hash := some "h", data := none, parent := none, files := [] } := by
  decide

/-- Claim C4, counterexample: persisting the index is claimed to write lines of
the shape hash space path ordered by hash; on a concrete two entry index built
by Index::update the file actually holds path space hash lines ordered by
path, which differs from the claimed serialization. -/
theorem c4_counterexample :
    writeIndexText exIndexTree =
      "a.txt ffffffffffffffffffffffffffffffffffffffff\nb.txt aaaaaaaaaaaaaaaaaaaaaaaaaaaaaaaaaaaaaaaa\n" ∧
    writeIndexText exIndexTree ≠ specIndexTextClaim exIndexTree := by
  decide

/-- Claim C4, amended: for every sequence of Index::update path hash calls
(entries free of newlines, hashes not ending in a carriage return), persisting
the resulting index writes one line per entry of the form path space hash -
the path key first, then the hash value - and the lines are ordered by path. -/
theorem c4_amended_persist (us : List (String × String))
    (hv : ∀ e ∈ us, '\n' ∉ e.1.data ∧ '\n' ∉ e.2.data ∧ e.2.data.getLast? ≠ some '\r') :
    BTreeMap.Sorted (us.foldl (fun a e => Index.update a e.1 e.2) []) ∧
    linesOf (writeIndexText (us.foldl (fun a e => Index.update a e.1 e.2) [])) =
      (us.foldl (fun a e => Index.update a e.1 e.2) []).map (fun e => e.1 ++ " " ++ e.2) := by
  simp only [Index.update]
  have hsort : BTreeMap.Sorted (us.foldl (fun a e => BTreeMap.insert a e.1 e.2) []) :=
    BTreeMap.sorted_foldl_insert us [] (by simp [BTreeMap.Sorted])
  refine ⟨hsort, ?_⟩
  unfold writeIndexText
  apply linesOf_concatLines
  intro l hl
  obtain ⟨e, he, hle⟩ := List.mem_map.1 hl
  have hmem : e ∈ us := by
    rcases BTreeMap.mem_foldl_insert us [] e he with h | h
    · simp at h
    · exact h
  have hve := hv e hmem
  rw [← hle]
  exact lineOf_entry_valid e hve.1 hve.2.1 hve.2.2

/-- Claim C5: during commit the staging index is cleared only after write_commit
succeeded. First part: whenever the flow reaches write_commit and that call
returns an error, the whole commit returns that error, the index file content
is unchanged, and the in-memory index map still holds exactly what was read.
Second part: whenever the whole commit returns Ok, the in-memory index map was
emptied and the index file was rewritten empty - and only then. -/
theorem c5_clear_only_after_success (root : String) :
    (∀ (w : World) (rp : String) (t : BTreeMap) (po : Option Commit) (e : Error) (w' : World),
      getHeadRefFlow (FileService.make root) w = Outcome.ok rp →
      readIndexFlow (FileService.make root) w = Outcome.ok t →
      resolveParent (FileService.make root) w (lookupAssoc w.fs rp) = Outcome.ok po →
      writeCommitFlow (FileService.make root)
          (Commit.add_from_index (Commit.new po) t) w = (Outcome.err e, w') →
      commitFlow (FileService.make root) w = (Outcome.err e, w', some t) ∧
        lookupAssoc w'.fs (FileService.make root).index =
          lookupAssoc w.fs (FileService.make root).index) ∧
    (∀ (w w' : World) (mem : Option BTreeMap),
      commitFlow (FileService.make root) w = (Outcome.ok (), w', mem) →
      mem = some [] ∧ lookupAssoc w'.fs (FileService.make root).index = some "") := by
  constructor
  · intro w rp t po e w' h1 h2 h3 h4
    constructor
    · unfold commitFlow
      rw [h1]
      dsimp only
      rw [h2]
      dsimp only
      rw [h3]
      dsimp only
      rw [h4]
    · exact writeCommitFlow_err_index root _ w e w' h4
  · intro w w' mem h
    unfold commitFlow at h
    cases hgh : getHeadRefFlow (FileService.make root) w with
    | err e1 => rw [hgh] at h; simp at h
    | panicked => rw [hgh] at h; simp at h
    | ok rp =>
      rw [hgh] at h
      dsimp only at h
      cases hri : readIndexFlow (FileService.make root) w with
      | err e1 => rw [hri] at h; simp at h
      | panicked => rw [hri] at h; simp at h
      | ok t =>
        rw [hri] at h
        dsimp only at h
        cases hrp : resolveParent (FileService.make root) w
            (lookupAssoc w.fs rp) with
        | err e1 => rw [hrp] at h; simp at h
        | panicked => rw [hrp] at h; simp at h
        | ok po =>
          rw [hrp] at h
          dsimp only at h
          rcases hwc : writeCommitFlow (FileService.make root)
              (Commit.add_from_index (Commit.new po) t) w with ⟨o, w1⟩
          rw [hwc] at h
          cases o with
          | err e1 => simp at h
          | panicked => simp at h
          | ok u =>
            dsimp only at h
            unfold clearFlow at h
            cases hcw : fsCreateWrite w1 (FileService.make root).index "" with
            | none => rw [hcw] at h; simp at h
            | some w2 =>
              rw [hcw] at h
              dsimp only at h
              simp only [Prod.mk.injEq] at h
              refine ⟨h.2.2.symm, ?_⟩
              rw [← h.2.1, fsCreateWrite_some w1 _ _ w2 hcw]
              exact lookupAssoc_setAssoc_self w1.fs _ ""

/-- Claim C6, counterexample: put followed by get is claimed to return exactly
the stored bytes for every byte sequence; storing the single byte 255 (not
valid UTF-8) makes read_object fail with an IO error from read_to_string, so
nothing is returned at all. -/
theorem c6_counterexample :
    read_object (write_obj [] hashA [255]) hashA = Except.error Error.ioError ∧
    ∀ s : String, read_object (write_obj [] hashA [255]) hashA ≠ Except.ok s := by
  refine ⟨by decide, ?_⟩
  intro s h
  rw [(by decide :
    read_object (write_obj [] hashA [255]) hashA = Except.error Error.ioError)] at h
  exact Except.noConfusion h

/-- Claim C6, amended: for every hash and byte sequence that is valid UTF-8,
any positive number of write_obj calls followed by read_object returns exactly
the string whose UTF-8 decoding the bytes are, and the stored file holds
exactly the written bytes. -/
theorem c6_amended_put_get (h : String) (b : List Nat) (s : List Char) (st : ObjStore)
    (n : Nat) (hdec : Utf8.utf8Decode b = some s) :
    read_object ((fun st => write_obj st h b)^[n + 1] st) h = Except.ok (String.mk s) ∧
    lookupAssoc ((fun st => write_obj st h b)^[n + 1] st) h = some b := by
  have hkey : lookupAssoc ((fun st => write_obj st h b)^[n + 1] st) h = some b := by
    rw [Function.iterate_succ_apply']
    exact lookupAssoc_setAssoc_self _ h b
  refine ⟨?_, hkey⟩
  unfold read_object
  rw [hkey]
  dsimp only
  rw [hdec]

/-- Claim C8, counterexample: get_hash_from_ref is claimed to return Some of
the full contents whenever the ref file exists; a ref file holding the single
byte 255 (not valid UTF-8) makes read_to_string fail, the expect call panics
and nothing is returned. -/
theorem c8_counterexample :
    HeadRef.get_hash_from_ref (some [255]) = HeadRef.RefReadResult.panicked ∧
    ∀ s : String,
      HeadRef.get_hash_from_ref (some [255]) ≠ HeadRef.RefReadResult.contents s := by
  refine ⟨by decide, ?_⟩
  intro s h
  rw [(by decide :
    HeadRef.get_hash_from_ref (some [255]) = HeadRef.RefReadResult.panicked)] at h
  exact HeadRef.RefReadResult.noConfusion h

/-- Claim C8, amended: get_hash_from_ref returns an absent value, not an error,
when the ref file does not exist; when the file exists and its contents are
valid UTF-8 it returns Some of the full contents (and panics on invalid
UTF-8 contents). -/
theorem c8_amended_ref_read (bs : List Nat) (s : List Char)
    (hdec : Utf8.utf8Decode bs = some s) :
    HeadRef.get_hash_from_ref none = HeadRef.RefReadResult.missing ∧
    HeadRef.get_hash_from_ref (some bs) = HeadRef.RefReadResult.contents (String.mk s) := by
  refine ⟨rfl, ?_⟩
  unfold HeadRef.get_hash_from_ref
  dsimp only
  rw [hdec]

/-- Claim C7, counterexample: the round trip is claimed for every mapping whose
keys and values are free of spaces and newlines; the mapping with value ending
in a carriage return qualifies, yet the Rust line iterator strips the carriage
return before the newline when loading, so the mapping comes back changed. -/
theorem c7_counterexample :
    readIndexText (writeIndexText [("k", "h\r")]) = Except.ok [("k", "h")] ∧
    readIndexText (writeIndexText [("k", "h\r")]) ≠ Except.ok [("k", "h\r")] := by
  refine ⟨by decide, ?_⟩
  intro h
  rw [(by decide : readIndexText (writeIndexText [("k", "h\r")]) =
    Except.ok ([("k", "h")] : BTreeMap))] at h
  have h2 := Except.ok.inj h
  simp at h2

/-- Claim C7, amended: for every sorted index mapping whose keys and values are
free of space and newline characters and whose values do not end in a carriage
return, persisting the mapping and loading the file back with read_index yields
an identical mapping. -/
theorem c7_amended_index_roundtrip (t : BTreeMap) (hs : BTreeMap.Sorted t)
    (hv : ∀ e ∈ t, (' ' ∉ e.1.data ∧ '\n' ∉ e.1.data) ∧
      (' ' ∉ e.2.data ∧ '\n' ∉ e.2.data ∧ e.2.data.getLast? ≠ some '\r')) :
    readIndexText (writeIndexText t) = Except.ok t := by
  unfold readIndexText writeIndexText
  have hlines : linesOf (concatLines (t.map (fun e => e.1 ++ " " ++ e.2))) =
      t.map (fun e => e.1 ++ " " ++ e.2) := by
    apply linesOf_concatLines
    intro l hl
    obtain ⟨e, he, hle⟩ := List.mem_map.1 hl
    rw [← hle]
    exact lineOf_entry_valid e (hv e he).1.2 (hv e he).2.2.1 (hv e he).2.2.2
  rw [hlines]
  have hfold := readIndex_fold_entries t [] (by simpa using hs)
    (fun e he => ⟨(hv e he).1.1, (hv e he).2.1⟩)
  simpa using hfold

/-- Claim C9: get_head_ref removes the first five bytes of the HEAD content
without checking that they spell ref colon space, and joins the remainder onto
the blip directory path; whenever the content is shorter than five bytes the
split_off call panics instead of returning a typed error (five not being a
character boundary of the content panics as well, which subsumes the short
content case). -/
theorem c9_head_ref_split (blip bs : List Nat) (s : List Char)
    (hdec : Utf8.utf8Decode bs = some s) :
    (bs.length < 5 → HeadRef.get_head_ref blip (some bs) = HeadRef.HeadRefResult.panicked) ∧
    (HeadRef.isCharBoundary bs 5 = true →
      HeadRef.get_head_ref blip (some bs) =
        HeadRef.HeadRefResult.ok (HeadRef.pathJoinBytes blip (bs.drop 5))) := by
  have hsome : (Utf8.utf8Decode bs).isNone = false := by rw [hdec]; rfl
  constructor
  · intro hlen
    have h1 : ¬(5 : Nat) < bs.length := by omega
    have h2 : ((5 : Nat) == bs.length) = false := by
      rw [beq_eq_false_iff_ne]
      omega
    have hb : HeadRef.isCharBoundary bs 5 = false := by
      simp only [HeadRef.isCharBoundary, h1, if_false, h2]
      rfl
    unfold HeadRef.get_head_ref
    dsimp only
    rw [hsome, hb]
    rfl
  · intro hb
    unfold HeadRef.get_head_ref
    dsimp only
    rw [hsome, hb]
    rfl

/-- Claim C10: every file written into the objects directory, by write_blob
through Blob::new or by write_commit through Commit::update, is named by the
40 character lowercase hexadecimal SHA-1 digest of exactly the bytes written
into it: both writes preserve the store invariant, and every digest rendering
is 40 lowercase hexadecimal characters. -/
theorem c10_object_names_are_digests (store : ObjStore) (hs : StoreHashOk store) :
    (∀ d, StoreHashOk (write_blob store (Blob.new d))) ∧
    (∀ c, StoreHashOk (write_commit_object store c)) ∧
    (∀ bs, (Sha1.result_str bs).data.length = 40 ∧
      ∀ ch ∈ (Sha1.result_str bs).data, isHexDigitChar ch = true) := by
  have hw : ∀ (h : String) (d : List Nat), h = Sha1.result_str d →
      StoreHashOk (write_obj store h d) := by
    intro h d hh p hp
    rcases mem_setAssoc store h d p hp with h2 | h2
    · exact hs p h2
    · rw [h2]
      simpa using hh
  refine ⟨?_, ?_, ?_⟩
  · intro d
    exact hw _ _ rfl
  · intro c
    have hrw : write_commit_object store c =
        write_obj store (Sha1.result_str (Utf8.encode (Commit.serializeText c).data))
          (Utf8.encode (Commit.serializeText c).data) := rfl
    rw [hrw]
    exact hw _ _ rfl
  · intro bs
    exact ⟨Sha1.result_str_length bs, Sha1.result_str_hex bs⟩

/-- Witness for claim C4: the amended persistence statement evaluated on three
update calls, the last overwriting an earlier path. -/
theorem c4_amended_persist_witness :
    BTreeMap.Sorted ([(("b.txt" : String), ("hh" : String)), ("a.txt", "gg"),
        ("b.txt", "kk")].foldl (fun a e => Index.update a e.1 e.2) []) ∧
    linesOf (writeIndexText ([(("b.txt" : String), ("hh" : String)), ("a.txt", "gg"),
        ("b.txt", "kk")].foldl (fun a e => Index.update a e.1 e.2) [])) =
      ([(("b.txt" : String), ("hh" : String)), ("a.txt", "gg"),
        ("b.txt", "kk")].foldl (fun a e => Index.update a e.1 e.2) []).map
        (fun e => e.1 ++ " " ++ e.2) :=
  c4_amended_persist [("b.txt", "hh"), ("a.txt", "gg"), ("b.txt", "kk")] (by decide)

/-- Witness for claim C5: both parts evaluated on concrete worlds, one in which
the ref file write fails and the fresh repository world in which commit
succeeds. -/
theorem c5_clear_only_after_success_witness :
    (commitFlow fsvR refFailWorld =
        (Outcome.err Error.ioError,
          (writeCommitFlow fsvR exCommitStaged refFailWorld).2, some [("a.txt", hashF)]) ∧
      lookupAssoc (writeCommitFlow fsvR exCommitStaged refFailWorld).2.fs fsvR.index =
        lookupAssoc refFailWorld.fs fsvR.index) ∧
    ((commitFlow fsvR freshWorld).2.2 = some [] ∧
      lookupAssoc (commitFlow fsvR freshWorld).2.1.fs fsvR.index = some "") :=
  ⟨(c5_clear_only_after_success "/r").1 refFailWorld "/r/.blip/refs/heads/master"
      [("a.txt", hashF)] none Error.ioError
      (writeCommitFlow fsvR exCommitStaged refFailWorld).2
      (by decide) (by decide) (by decide) (by decide),
   (c5_clear_only_after_success "/r").2 freshWorld (commitFlow fsvR freshWorld).2.1
      (commitFlow fsvR freshWorld).2.2 (by decide)⟩

/-- Witness for claim C6: three writes of the bytes of hi followed by a read. -/
theorem c6_amended_put_get_witness :
    read_object ((fun st => write_obj st hashA [104, 105])^[2 + 1] []) hashA =
      Except.ok (String.mk ['h', 'i']) ∧
    lookupAssoc ((fun st => write_obj st hashA [104, 105])^[2 + 1] []) hashA =
      some [104, 105] :=
  c6_amended_put_get hashA [104, 105] ['h', 'i'] [] 2 (by decide)

/-- Witness for claim C7: round trip of a concrete two entry mapping. -/
theorem c7_amended_index_roundtrip_witness :
    readIndexText (writeIndexText [(("a.txt" : String), ("1234" : String)),
        ("b.txt", "5678")]) =
      Except.ok [(("a.txt" : String), ("1234" : String)), ("b.txt", "5678")] :=
  c7_amended_index_roundtrip [("a.txt", "1234"), ("b.txt", "5678")] (by decide) (by decide)

/-- Witness for claim C8: a missing ref file and a two byte ASCII ref file. -/
theorem c8_amended_ref_read_witness :
    HeadRef.get_hash_from_ref none = HeadRef.RefReadResult.missing ∧
    HeadRef.get_hash_from_ref (some [104, 105]) =
      HeadRef.RefReadResult.contents (String.mk ['h', 'i']) :=
  c8_amended_ref_read [104, 105] ['h', 'i'] (by decide)

/-- Witness for claim C9: a two byte HEAD file panics; a six byte HEAD file
whose first five bytes are not ref colon space still resolves by stripping. -/
theorem c9_head_ref_split_witness :
    HeadRef.get_head_ref [47, 114] (some [97, 98]) = HeadRef.HeadRefResult.panicked ∧
    HeadRef.get_head_ref [47, 114] (some [88, 88, 88, 88, 88, 102]) =
      HeadRef.HeadRefResult.ok [47, 114, 47, 102] :=
  ⟨(c9_head_ref_split [47, 114] [97, 98] ['a', 'b'] (by decide)).1 (by decide),
   (c9_head_ref_split [47, 114] [88, 88, 88, 88, 88, 102] ['X', 'X', 'X', 'X', 'X', 'f']
      (by decide)).2 (by decide)⟩

/-- Witness for claim C10: the store invariant holds after writing one blob
into the empty store. -/
theorem c10_object_names_are_digests_witness :
    StoreHashOk (write_blob [] (Blob.new [104])) :=
  (c10_object_names_are_digests [] (fun p hp => absurd hp (List.not_mem_nil p))).1 [104]
